import Mathlib

/-!
Verification of the resilience layer of the youtube-channel-analyzer
repository: shallow embedding of `src/shared/utils/error_handler.py`,
`rate_limiter.py`, `proxy_manager.py` and `cache_manager.py`.

Time is modelled as `ℚ` (seconds since the epoch); clock readings are
passed explicitly to every operation that calls `time.time()` or
`datetime.utcnow()` in the source.
-/

namespace YCA

/-! ## CircuitBreaker (`error_handler.py`, class `CircuitBreaker`) -/

/-- The three values of the Python string field `CircuitBreaker.state`. -/
inductive CBState : Type
  | CLOSED
  | OPEN
  | HALF_OPEN
deriving DecidableEq, Repr

/-- The mutable state of a `CircuitBreaker` instance
(`failure_threshold`, `timeout`, `failure_count`, `last_failure_time`,
`state`), as initialised by `__init__`. -/
structure CircuitBreaker : Type where
  failure_threshold : ℕ
  timeout : ℚ
  failure_count : ℕ
  last_failure_time : Option ℚ
  state : CBState
deriving DecidableEq, Repr

/-- `CircuitBreaker.__init__`: counters zeroed, no failure time, CLOSED. -/
def CircuitBreaker.init (failure_threshold : ℕ) (timeout : ℚ) : CircuitBreaker :=
  { failure_threshold := failure_threshold
    timeout := timeout
    failure_count := 0
    last_failure_time := none
    state := CBState.CLOSED }

/-- `CircuitBreaker.can_execute`, with `now` the value of `time.time()`.
Returns the boolean result together with the (possibly updated) breaker.
The Python test `if self.last_failure_time:` is falsy both for `None`
and for the float `0.0`, which the nested match reproduces. -/
def CircuitBreaker.can_execute (cb : CircuitBreaker) (now : ℚ) :
    Bool × CircuitBreaker :=
  if cb.state = CBState.CLOSED then (true, cb)
  else if cb.state = CBState.OPEN then
    match cb.last_failure_time with
    | some t =>
        if t ≠ 0 then
          if now - t ≥ cb.timeout then
            (true, { cb with state := CBState.HALF_OPEN })
          else (false, cb)
        else (false, cb)
    | none => (false, cb)
  else if cb.state = CBState.HALF_OPEN then (true, cb)
  else (false, cb)

/-- `CircuitBreaker.record_success`. -/
def CircuitBreaker.record_success (cb : CircuitBreaker) : CircuitBreaker :=
  let cb' :=
    if cb.state = CBState.HALF_OPEN then
      { cb with state := CBState.CLOSED, failure_count := 0 }
    else cb
  { cb' with failure_count := 0 }

/-- `CircuitBreaker.record_failure`, with `now` the value of `time.time()`. -/
def CircuitBreaker.record_failure (cb : CircuitBreaker) (now : ℚ) : CircuitBreaker :=
  let cb' := { cb with
    failure_count := cb.failure_count + 1
    last_failure_time := some now }
  if cb'.state = CBState.HALF_OPEN then { cb' with state := CBState.OPEN }
  else if cb'.failure_count ≥ cb'.failure_threshold then { cb' with state := CBState.OPEN }
  else cb'

/-- A fresh breaker with `failure_threshold = 3` after three consecutive
`record_failure` calls at times `t1, t2, t3`. -/
def cbAfterThreeFailures (timeout t1 t2 t3 : ℚ) : CircuitBreaker :=
  (((CircuitBreaker.init 3 timeout).record_failure t1).record_failure
      t2).record_failure t3

theorem cbAfterThreeFailures_eq (timeout t1 t2 t3 : ℚ) :
    cbAfterThreeFailures timeout t1 t2 t3 =
      { failure_threshold := 3, timeout := timeout, failure_count := 3
        last_failure_time := some t3, state := CBState.OPEN } := rfl

/-- C1: with `failure_threshold = 3`, three consecutive `record_failure`
calls starting from CLOSED reach OPEN; `can_execute` then returns `false`
at any time less than `timeout` after the last failure, returns `true`
exactly when `timeout` has elapsed (that call moving the state to
HALF_OPEN), and a further `record_failure` while HALF_OPEN returns to
OPEN with `last_failure_time` set to the current time. -/
theorem C1_circuit_breaker_state_machine (timeout t1 t2 t3 t t4 : ℚ)
    (_htimeout : 0 < timeout) (ht3 : 0 < t3) :
    (cbAfterThreeFailures timeout t1 t2 t3).state = CBState.OPEN ∧
    (t - t3 < timeout →
      (cbAfterThreeFailures timeout t1 t2 t3).can_execute t =
        (false, cbAfterThreeFailures timeout t1 t2 t3)) ∧
    (t - t3 ≥ timeout →
      (cbAfterThreeFailures timeout t1 t2 t3).can_execute t =
        (true, { cbAfterThreeFailures timeout t1 t2 t3 with
                  state := CBState.HALF_OPEN }) ∧
      (({ cbAfterThreeFailures timeout t1 t2 t3 with
           state := CBState.HALF_OPEN }).record_failure t4).state =
        CBState.OPEN ∧
      (({ cbAfterThreeFailures timeout t1 t2 t3 with
           state := CBState.HALF_OPEN }).record_failure t4).last_failure_time =
        some t4) := by
  have h3 : (t3 : ℚ) ≠ 0 := ne_of_gt ht3
  refine ⟨rfl, ?_, ?_⟩
  · intro hlt
    simp only [cbAfterThreeFailures_eq, CircuitBreaker.can_execute]
    simp [h3]
    linarith
  · intro hge
    refine ⟨?_, rfl, rfl⟩
    simp only [cbAfterThreeFailures_eq, CircuitBreaker.can_execute]
    simp [h3]
    linarith

/-- Instantiation of C1 at `timeout = 60`, failures at times 1, 2, 3,
probes at times 3 (still blocked) and 63 (cooldown elapsed). -/
theorem C1_circuit_breaker_state_machine_witness :
    ((cbAfterThreeFailures 60 1 2 3).can_execute 3).1 = false ∧
    ((cbAfterThreeFailures 60 1 2 3).can_execute 63).1 = true ∧
    ((((cbAfterThreeFailures 60 1 2 3).can_execute 63).2.record_failure
        70).state = CBState.OPEN) := by
  have hA := C1_circuit_breaker_state_machine 60 1 2 3 3 70 (by norm_num)
    (by norm_num)
  have hB := C1_circuit_breaker_state_machine 60 1 2 3 63 70 (by norm_num)
    (by norm_num)
  refine ⟨?_, ?_, ?_⟩
  · rw [hA.2.1 (by norm_num)]
  · rw [(hB.2.2 (by norm_num)).1]
  · rw [(hB.2.2 (by norm_num)).1]
    exact (hB.2.2 (by norm_num)).2.1

/-! ## RateLimiter (`rate_limiter.py`, class `RateLimiter`) -/

/-- The eviction loop of `RateLimiter.acquire`: pop timestamps from the
front of the deque while the oldest is strictly older than
`now - time_window`. -/
def evictOld (time_window now : ℚ) : List ℚ → List ℚ
  | [] => []
  | t :: ts => if t < now - time_window then evictOld time_window now ts else t :: ts

/-- The state of a `RateLimiter` instance: configuration plus the
`requests` deque of admission timestamps (oldest first). -/
structure RateLimiter : Type where
  max_requests : ℕ
  time_window : ℚ
  requests : List ℚ
deriving DecidableEq, Repr

/-- `RateLimiter.acquire`.  `t1` is the first `datetime.utcnow()` reading,
`t2` the reading after the optional `asyncio.sleep`, `t3` the reading at
the final `append`.  `none` models the `IndexError` raised by
`self.requests[0]` when the deque is empty at the limit check (reachable
only with `max_requests = 0`). -/
def RateLimiter.acquire (rl : RateLimiter) (t1 t2 t3 : ℚ) : Option RateLimiter :=
  let r1 := evictOld rl.time_window t1 rl.requests
  if r1.length ≥ rl.max_requests then
    match r1.head? with
    | none => none
    | some oldest =>
        let wait_seconds := (oldest + rl.time_window) - t1
        if wait_seconds > 0 then
          some { rl with requests := evictOld rl.time_window t2 r1 ++ [t3] }
        else
          some { rl with requests := r1 ++ [t3] }
  else some { rl with requests := r1 ++ [t3] }

theorem evictOld_length_le (w now : ℚ) (l : List ℚ) :
    (evictOld w now l).length ≤ l.length := by
  induction l with
  | nil => simp [evictOld]
  | cons t ts ih =>
      by_cases h : t < now - w
      · simp only [evictOld, if_pos h]
        exact Nat.le_succ_of_le ih
      · simp [evictOld, if_neg h]

theorem evictOld_head_not_stale (w now : ℚ) (l : List ℚ) (o : ℚ)
    (h : (evictOld w now l).head? = some o) : ¬ o < now - w := by
  induction l with
  | nil => simp [evictOld] at h
  | cons t ts ih =>
      by_cases ht : t < now - w
      · rw [evictOld, if_pos ht] at h
        exact ih h
      · rw [evictOld, if_neg ht] at h
        simp at h
        exact h ▸ ht

theorem evictOld_cons_of_stale (w now o : ℚ) (rest : List ℚ)
    (h : o < now - w) : evictOld w now (o :: rest) = evictOld w now rest := by
  rw [evictOld, if_pos h]

/-- C2 counterexample: `RateLimiter(max_requests := 1, time_window := 60)`;
one acquire completes at time 0; a second acquire entirely at time 60
(the moment the first timestamp is exactly window-old) keeps the old
timestamp — the eviction test `requests[0] < now - window` is strict and
`wait_seconds = 0` skips the sleep/re-evict branch — and appends, leaving
2 > 1 retained timestamps. -/
theorem C2_window_bound_counterexample :
    RateLimiter.acquire ⟨1, 60, []⟩ 0 0 0 = some ⟨1, 60, [0]⟩ ∧
    RateLimiter.acquire ⟨1, 60, [0]⟩ 60 60 60 = some ⟨1, 60, [0, 60]⟩ ∧
    2 > 1 := by
  refine ⟨?_, ?_, by norm_num⟩ <;> norm_num [RateLimiter.acquire, evictOld]

/-- C2 amended: the bound `|requests| ≤ max_requests` is preserved by a
completed `acquire` provided the clock never reads exactly
`oldest + time_window`: the entry reading `t1` differs from it, and when
the sleep branch is taken the post-sleep reading `t2` lies strictly
beyond it. -/
theorem C2_window_bound_amended (rl : RateLimiter) (t1 t2 t3 : ℚ)
    (res : RateLimiter)
    (hlen : rl.requests.length ≤ rl.max_requests)
    (hboundary : ∀ o, (evictOld rl.time_window t1 rl.requests).head? = some o →
      t1 ≠ o + rl.time_window)
    (hwake : ∀ o, (evictOld rl.time_window t1 rl.requests).head? = some o →
      t1 < o + rl.time_window → o + rl.time_window < t2)
    (hres : rl.acquire t1 t2 t3 = some res) :
    res.requests.length ≤ rl.max_requests := by
  simp only [RateLimiter.acquire] at hres
  split at hres
  next hlim =>
    have hr1len : (evictOld rl.time_window t1 rl.requests).length ≤
        rl.requests.length := evictOld_length_le _ _ _
    have hr1eq : (evictOld rl.time_window t1 rl.requests).length =
        rl.max_requests := le_antisymm (le_trans hr1len hlen) hlim
    split at hres
    next ho => exact absurd hres (by simp)
    next oldest ho =>
      have hfresh : ¬ oldest < t1 - rl.time_window :=
        evictOld_head_not_stale _ _ _ _ ho
      split at hres
      next hw =>
        have ht2 : oldest + rl.time_window < t2 :=
          hwake oldest ho (by linarith)
        obtain ⟨rest, hcons⟩ : ∃ rest,
            evictOld rl.time_window t1 rl.requests = oldest :: rest := by
          cases hc : evictOld rl.time_window t1 rl.requests with
          | nil => rw [hc] at ho; simp at ho
          | cons a as =>
              rw [hc] at ho
              simp only [List.head?_cons, Option.some.injEq] at ho
              exact ⟨as, by rw [ho]⟩
        have hdrop : evictOld rl.time_window t2
            (evictOld rl.time_window t1 rl.requests) =
            evictOld rl.time_window t2 rest := by
          rw [hcons]
          exact evictOld_cons_of_stale _ _ _ _ (by linarith)
        have hlen2 : (evictOld rl.time_window t2
            (evictOld rl.time_window t1 rl.requests)).length ≤ rest.length := by
          rw [hdrop]; exact evictOld_length_le _ _ _
        have hrest : rest.length + 1 = rl.max_requests := by
          have h' := hr1eq
          rw [hcons] at h'
          simpa using h'
        have hreq : res.requests = evictOld rl.time_window t2
            (evictOld rl.time_window t1 rl.requests) ++ [t3] := by
          injection hres with h
          rw [← h]
        rw [hreq]
        simp only [List.length_append, List.length_cons, List.length_nil]
        omega
      next hw =>
        exfalso
        have hle : t1 ≤ oldest + rl.time_window := by linarith
        have hge : oldest + rl.time_window ≤ t1 := by linarith
        exact hboundary oldest ho (le_antisymm hle hge)
  next hlim =>
    have hr1len : (evictOld rl.time_window t1 rl.requests).length ≤
        rl.requests.length := evictOld_length_le _ _ _
    have hreq : res.requests = evictOld rl.time_window t1 rl.requests ++ [t3] := by
      injection hres with h
      rw [← h]
    rw [hreq]
    simp only [List.length_append, List.length_cons, List.length_nil]
    omega

/-- Instantiation of C2 (amended) at `max_requests = 1`,
`time_window = 60`, retained timestamp 0, an acquire entering at time 30
and waking at time 61. -/
theorem C2_window_bound_amended_witness :
    ∃ res : RateLimiter,
      RateLimiter.acquire ⟨1, 60, [0]⟩ 30 61 61 = some res ∧
      res.requests.length ≤ 1 := by
  have hev : evictOld 60 30 [0] = [0] := by norm_num [evictOld]
  refine ⟨⟨1, 60, [61]⟩, by norm_num [RateLimiter.acquire, evictOld], ?_⟩
  exact C2_window_bound_amended ⟨1, 60, [0]⟩ 30 61 61 ⟨1, 60, [61]⟩
    (by norm_num)
    (by intro o ho; rw [hev] at ho; simp at ho; subst ho; norm_num)
    (by intro o ho _; rw [hev] at ho; simp at ho; subst ho; norm_num)
    (by norm_num [RateLimiter.acquire, evictOld])

/-! ## retry_with_backoff (`error_handler.py`) -/

/-- The `while retries <= max_retries` loop of `retry_with_backoff`.
`f n` is the outcome of the `(n+1)`-th invocation of the wrapped
coroutine (`Except.error` models a raised exception of a caught type).
`attempt` is the number of invocations already made, so the Python
counter `retries` equals `attempt + 1` right after invocation `attempt`
fails; `remaining` is `max_retries - attempt`.  Returns the final
outcome (`Except.error e` modelling `raise` of `e`), the list of
`asyncio.sleep` delays issued, and the number of invocations of `f`. -/
def retryGo (base_delay max_delay exponential_base : ℚ)
    (f : ℕ → Except E A) : ℕ → ℕ → Except E A × List ℚ × ℕ
  | remaining, attempt =>
    match f attempt with
    | Except.ok a => (Except.ok a, [], 1)
    | Except.error e =>
        match remaining with
        | 0 => (Except.error e, [], 1)
        | Nat.succ r =>
            let delay := min (base_delay * exponential_base ^ attempt) max_delay
            let rest := retryGo base_delay max_delay exponential_base f r (attempt + 1)
            (rest.1, delay :: rest.2.1, rest.2.2 + 1)

/-- `retry_with_backoff(max_retries, base_delay, max_delay,
exponential_base)` applied to the coroutine `f`: the delay before the
`k`-th retry is `min(base_delay * exponential_base ^ (retries - 1),
max_delay)` with `retries = k`, and on exhaustion the bare last
exception is re-raised (`raise` with no argument). -/
def retry_with_backoff (max_retries : ℕ)
    (base_delay max_delay exponential_base : ℚ)
    (f : ℕ → Except E A) : Except E A × List ℚ × ℕ :=
  retryGo base_delay max_delay exponential_base f max_retries 0

/-- C3 counterexample: with `max_retries = 3, base_delay = 1,
exponential_base = 2` (and the default `max_delay = 60`) and an
operation raising error `7` on every attempt, the wrapper makes exactly
4 invocations and sleeps 1s, 2s, 4s, but the error finally propagated is
the bare error `7` raised by the last attempt — it is re-raised as-is,
not wrapped with an attempt count (the count appears only in a log
message). -/
theorem C3_retry_exhaustion_counterexample :
    retry_with_backoff 3 1 60 2 (fun _ => (Except.error 7 : Except ℕ Unit)) =
      (Except.error 7, [1, 2, 4], 4) := by
  norm_num [retry_with_backoff, retryGo]

/-- C3 amended: for an operation failing on every attempt with errors
`es 0, es 1, …`, `retry_with_backoff` with `max_retries = 3,
base_delay = 1, exponential_base = 2` invokes the operation exactly 4
times, sleeps `min(1 * 2 ^ (k-1), max_delay) = 1, 2, 4` seconds before
the three retries, and finally propagates the unwrapped last error
`es 3` (the error of the 4th invocation). -/
theorem C3_retry_exhaustion_amended (es : ℕ → E) (f : ℕ → Except E A)
    (hf : ∀ n, f n = Except.error (es n)) :
    retry_with_backoff 3 1 60 2 f = (Except.error (es 3), [1, 2, 4], 4) := by
  show retryGo 1 60 2 f 3 0 = _
  simp only [retryGo, hf]
  norm_num

/-- Instantiation of C3 (amended) at the always-failing operation whose
`n`-th attempt raises the error `n`. -/
theorem C3_retry_exhaustion_amended_witness :
    retry_with_backoff 3 1 60 2 (fun n => (Except.error n : Except ℕ Unit)) =
      (Except.error 3, [1, 2, 4], 4) :=
  C3_retry_exhaustion_amended (fun n => n)
    (fun n => (Except.error n : Except ℕ Unit)) (fun _ => rfl)

/-! ## ProxyManager (`proxy_manager.py`) -/

/-- Insertion-ordered dictionary with string keys, modelling a Python
`dict`: lookup by key. -/
def dictGet {α : Type} : List (String × α) → String → Option α
  | [], _ => none
  | (k', v') :: d, k => if k' = k then some v' else dictGet d k

/-- Python `d[k] = v`: replace in place if the key is present, else
append (dicts preserve insertion order). -/
def dictSet {α : Type} : List (String × α) → String → α → List (String × α)
  | [], k, v => [(k, v)]
  | (k', v') :: d, k, v =>
      if k' = k then (k, v) :: d else (k', v') :: dictSet d k v

/-- Python `del d[k]` for a present key (no-op when absent). -/
def dictErase {α : Type} : List (String × α) → String → List (String × α)
  | [], _ => []
  | (k', v') :: d, k => if k' = k then d else (k', v') :: dictErase d k

/-- `ProxyStats` dataclass: success and failure counters. -/
structure ProxyStats : Type where
  success : ℕ
  failure : ℕ
deriving DecidableEq, Repr

/-- `ProxyStats.success_rate`: `success / total` when any request was
recorded, optimistic `1.0` otherwise. -/
def ProxyStats.success_rate (s : ProxyStats) : ℚ :=
  let total := s.success + s.failure
  if total > 0 then (s.success : ℚ) / (total : ℚ) else 1

/-- `ProxyStats.total_requests`. -/
def ProxyStats.total_requests (s : ProxyStats) : ℕ :=
  s.success + s.failure

/-- `ProxyManager` state.  Proxies are modelled as their string form, for
which `_get_proxy_key` is the identity, so the stats dictionary is keyed
by the proxy itself. -/
structure ProxyManager : Type where
  proxies : List String
  rotation_strategy : String
  current_index : ℕ
  proxy_stats : List (String × ProxyStats)
deriving DecidableEq, Repr

/-- `ProxyManager.__init__`: stats initialised for every pool entry
(duplicate keys collapse onto one record). -/
def ProxyManager.init (proxies : List String) (rotation_strategy : String) :
    ProxyManager :=
  { proxies := proxies
    rotation_strategy := rotation_strategy
    current_index := 0
    proxy_stats := proxies.foldl (fun d p => dictSet d p ⟨0, 0⟩) [] }

/-- The `viable_proxies` accumulation loop of the `smart` branch of
`get_proxy`: pool entries whose stats satisfy
`success_rate > 0.1 or total_requests < 10`, paired with their success
rate, in pool order.  `none` models the `KeyError` raised by
`self.proxy_stats[key]` when a pool entry has no stats record. -/
def viableOf (stats : List (String × ProxyStats)) :
    List String → Option (List (String × ℚ))
  | [] => some []
  | p :: ps =>
      match dictGet stats p with
      | none => none
      | some s =>
          match viableOf stats ps with
          | none => none
          | some rest =>
              if s.success_rate > 1/10 ∨ s.total_requests < 10 then
                some ((p, s.success_rate) :: rest)
              else some rest

/-- `viable_proxies.sort(key=lambda x: x[1], reverse=True)` followed by
`viable_proxies[0][0]`: CPython's sort is stable and `reverse=True`
preserves the original order of equal keys, so element 0 of the sorted
list is the earliest entry attaining the maximal success rate, which
this fold computes (the best-so-far is replaced only on a strictly
greater rate). -/
def firstMaxAux (best : String × ℚ) : List (String × ℚ) → String
  | [] => best.1
  | q :: qs => if q.2 > best.2 then firstMaxAux q qs else firstMaxAux best qs

/-- `ProxyManager.get_proxy`.  `r` models the index drawn by
`random.choice` (taken modulo the pool size).  `Except.error` models an
uncaught Python exception. -/
def ProxyManager.get_proxy (pm : ProxyManager) (r : ℕ) :
    Except String (Option String × ProxyManager) :=
  if pm.proxies = [] then Except.ok (none, pm)
  else if pm.rotation_strategy = "round_robin" then
    match pm.proxies.get? pm.current_index with
    | none => Except.error "IndexError"
    | some p => Except.ok (some p,
        { pm with current_index := (pm.current_index + 1) % pm.proxies.length })
  else if pm.rotation_strategy = "random" then
    Except.ok (some (pm.proxies.getD (r % pm.proxies.length) ""), pm)
  else if pm.rotation_strategy = "smart" then
    match viableOf pm.proxy_stats pm.proxies with
    | none => Except.error "KeyError"
    | some viable =>
        match viable with
        | [] =>
            Except.ok (some (pm.proxies.getD (r % pm.proxies.length) ""),
              { pm with proxy_stats :=
                  pm.proxy_stats.map (fun kv => (kv.1, (⟨0, 0⟩ : ProxyStats))) })
        | q :: qs => Except.ok (some (firstMaxAux q qs), pm)
  else Except.ok (none, pm)

/-- `ProxyManager.report_success`. -/
def ProxyManager.report_success (pm : ProxyManager) (p : String) : ProxyManager :=
  match dictGet pm.proxy_stats p with
  | none => pm
  | some s =>
      { pm with proxy_stats :=
          dictSet pm.proxy_stats p { s with success := s.success + 1 } }

/-- `ProxyManager.report_failure`. -/
def ProxyManager.report_failure (pm : ProxyManager) (p : String) : ProxyManager :=
  match dictGet pm.proxy_stats p with
  | none => pm
  | some s =>
      { pm with proxy_stats :=
          dictSet pm.proxy_stats p { s with failure := s.failure + 1 } }

/-- `ProxyManager.remove_proxy`: `list.remove` drops the first
occurrence; the stats record is deleted; `current_index` is NOT
adjusted. -/
def ProxyManager.remove_proxy (pm : ProxyManager) (p : String) : ProxyManager :=
  if p ∈ pm.proxies then
    { pm with proxies := pm.proxies.erase p,
              proxy_stats := dictErase pm.proxy_stats p }
  else pm

/-- `ProxyManager.add_proxy`. -/
def ProxyManager.add_proxy (pm : ProxyManager) (p : String) : ProxyManager :=
  { pm with proxies := pm.proxies ++ [p],
            proxy_stats := dictSet pm.proxy_stats p ⟨0, 0⟩ }

/-- C6: the round-robin cursor is left out of bounds by `remove_proxy`.
From pool `["a", "b", "c"]`, two `get_proxy` calls advance the cursor to
2; removing `"a"` shrinks the pool to `["b", "c"]` without resetting the
cursor; the next `get_proxy` evaluates `self.proxies[2]` on a 2-element
list and raises `IndexError` instead of returning a pool member. -/
theorem C6_round_robin_index_error :
    (ProxyManager.init ["a", "b", "c"] "round_robin").get_proxy 0 =
      Except.ok (some "a", ⟨["a", "b", "c"], "round_robin", 1,
        [("a", ⟨0, 0⟩), ("b", ⟨0, 0⟩), ("c", ⟨0, 0⟩)]⟩) ∧
    ProxyManager.get_proxy ⟨["a", "b", "c"], "round_robin", 1,
        [("a", ⟨0, 0⟩), ("b", ⟨0, 0⟩), ("c", ⟨0, 0⟩)]⟩ 0 =
      Except.ok (some "b", ⟨["a", "b", "c"], "round_robin", 2,
        [("a", ⟨0, 0⟩), ("b", ⟨0, 0⟩), ("c", ⟨0, 0⟩)]⟩) ∧
    ProxyManager.remove_proxy ⟨["a", "b", "c"], "round_robin", 2,
        [("a", ⟨0, 0⟩), ("b", ⟨0, 0⟩), ("c", ⟨0, 0⟩)]⟩ "a" =
      ⟨["b", "c"], "round_robin", 2, [("b", ⟨0, 0⟩), ("c", ⟨0, 0⟩)]⟩ ∧
    ProxyManager.get_proxy ⟨["b", "c"], "round_robin", 2,
        [("b", ⟨0, 0⟩), ("c", ⟨0, 0⟩)]⟩ 0 =
      Except.error "IndexError" := by
  refine ⟨?_, ?_, ?_, ?_⟩ <;> rfl

theorem firstMaxAux_spec (qs : List (String × ℚ)) (best : String × ℚ) :
    ∃ lft pr rgt,
      best :: qs = lft ++ pr :: rgt ∧
      firstMaxAux best qs = pr.1 ∧
      (∀ q ∈ lft, q.2 < pr.2) ∧
      (∀ q ∈ best :: qs, q.2 ≤ pr.2) := by
  induction qs generalizing best with
  | nil =>
      refine ⟨[], best, [], rfl, rfl, by simp, ?_⟩
      intro x hx
      simp at hx
      rw [hx]
  | cons q qs ih =>
      by_cases h : q.2 > best.2
      · obtain ⟨lft, pr, rgt, heq, hf, hlt, hle⟩ := ih q
        have hqle : q.2 ≤ pr.2 := hle q (List.mem_cons_self _ _)
        refine ⟨best :: lft, pr, rgt, ?_, ?_, ?_, ?_⟩
        · rw [List.cons_append, ← heq]
        · rw [firstMaxAux, if_pos h]; exact hf
        · intro x hx
          rcases List.mem_cons.mp hx with hx | hx
          · rw [hx]; exact lt_of_lt_of_le h hqle
          · exact hlt x hx
        · intro x hx
          rcases List.mem_cons.mp hx with hx | hx
          · rw [hx]; exact le_of_lt (lt_of_lt_of_le h hqle)
          · exact hle x hx
      · obtain ⟨lft, pr, rgt, heq, hf, hlt, hle⟩ := ih best
        have hq : q.2 ≤ best.2 := not_lt.mp h
        cases lft with
        | nil =>
            simp only [List.nil_append] at heq
            injection heq with h1 h2
            refine ⟨[], best, q :: qs, rfl, ?_, by simp, ?_⟩
            · rw [firstMaxAux, if_neg h, hf, ← h1]
            · intro x hx
              rcases List.mem_cons.mp hx with hx | hx
              · rw [hx]
              rcases List.mem_cons.mp hx with hx | hx
              · rw [hx]; exact hq
              · have hxle := hle x (List.mem_cons_of_mem _ (h2 ▸ hx))
                rw [← h1] at hxle
                exact hxle
        | cons b lft' =>
            rw [List.cons_append] at heq
            injection heq with h1 h2
            have hbestlt : best.2 < pr.2 := by
              have hb := hlt b (List.mem_cons_self _ _)
              rw [← h1] at hb
              exact hb
            have hbestle : best.2 ≤ pr.2 := le_of_lt hbestlt
            refine ⟨best :: q :: lft', pr, rgt, ?_, ?_, ?_, ?_⟩
            · rw [List.cons_append, List.cons_append, ← h2]
            · rw [firstMaxAux, if_neg h]; exact hf
            · intro x hx
              rcases List.mem_cons.mp hx with hx | hx
              · rw [hx]; exact hbestlt
              rcases List.mem_cons.mp hx with hx | hx
              · rw [hx]; exact lt_of_le_of_lt hq hbestlt
              · exact hlt x (List.mem_cons_of_mem _ hx)
            · intro x hx
              rcases List.mem_cons.mp hx with hx | hx
              · rw [hx]; exact hbestle
              rcases List.mem_cons.mp hx with hx | hx
              · rw [hx]; exact le_trans hq hbestle
              · exact hle x (List.mem_cons_of_mem _ hx)

theorem viableOf_eq_filterMap (stats : List (String × ProxyStats))
    (pool : List String) (viable : List (String × ℚ))
    (hv : viableOf stats pool = some viable) :
    viable = pool.filterMap (fun x =>
      (dictGet stats x).bind (fun s =>
        if s.success_rate > 1/10 ∨ s.total_requests < 10 then
          some (x, s.success_rate)
        else none)) := by
  induction pool generalizing viable with
  | nil =>
      simp only [viableOf, Option.some.injEq] at hv
      simp [← hv]
  | cons p ps ih =>
      rw [viableOf] at hv
      cases hg : dictGet stats p with
      | none => rw [hg] at hv; simp at hv
      | some s =>
          rw [hg] at hv
          cases hrec : viableOf stats ps with
          | none => rw [hrec] at hv; simp at hv
          | some rest =>
              rw [hrec] at hv
              dsimp only at hv
              by_cases helig : s.success_rate > 1/10 ∨ s.total_requests < 10
              · rw [if_pos helig] at hv
                injection hv with hv
                rw [← hv, List.filterMap_cons]
                simp only [hg, Option.some_bind, if_pos helig]
                rw [← ih rest hrec]
              · rw [if_neg helig] at hv
                injection hv with hv
                rw [← hv, List.filterMap_cons]
                simp only [hg, Option.some_bind, if_neg helig]
                exact ih rest hrec

theorem get_proxy_smart_viable (pool : List String)
    (stats : List (String × ProxyStats)) (idx r : ℕ)
    (q : String × ℚ) (qs : List (String × ℚ))
    (hpool : pool ≠ [])
    (hv : viableOf stats pool = some (q :: qs)) :
    ProxyManager.get_proxy ⟨pool, "smart", idx, stats⟩ r =
      Except.ok (some (firstMaxAux q qs), ⟨pool, "smart", idx, stats⟩) := by
  simp only [ProxyManager.get_proxy, hv, hpool]
  rw [if_neg (by decide), if_neg (by decide), if_pos trivial, if_neg (by decide)]

theorem get_proxy_smart_reset_eval (pool : List String)
    (stats : List (String × ProxyStats)) (idx r : ℕ)
    (hpool : pool ≠ [])
    (hv : viableOf stats pool = some []) :
    ProxyManager.get_proxy ⟨pool, "smart", idx, stats⟩ r =
      Except.ok (some (pool.getD (r % pool.length) ""),
        ⟨pool, "smart", idx,
          stats.map (fun kv => (kv.1, (⟨0, 0⟩ : ProxyStats)))⟩) := by
  simp only [ProxyManager.get_proxy, hv, hpool]
  rw [if_neg (by decide), if_neg (by decide), if_pos trivial, if_neg (by decide)]

/-- C4: under the `smart` strategy, when the eligibility filter
(`success_rate > 0.1 or total_requests < 10`, evaluated over the pool in
order) yields a non-empty list, `get_proxy` returns, without modifying
the manager, the eligible proxy of highest success rate, the earliest in
pool order winning ties: the returned proxy splits the eligible list so
that every eligible entry strictly before it has a strictly smaller
rate, and no eligible entry beats its rate. -/
theorem C4_smart_selects_highest_success_rate
    (pool : List String) (stats : List (String × ProxyStats)) (idx r : ℕ)
    (viable : List (String × ℚ))
    (hv : viableOf stats pool = some viable) (hne : viable ≠ []) :
    ∃ p rate lft rgt,
      ProxyManager.get_proxy ⟨pool, "smart", idx, stats⟩ r =
        Except.ok (some p, ⟨pool, "smart", idx, stats⟩) ∧
      viable = pool.filterMap (fun x =>
        (dictGet stats x).bind (fun s =>
          if s.success_rate > 1/10 ∨ s.total_requests < 10 then
            some (x, s.success_rate)
          else none)) ∧
      viable = lft ++ (p, rate) :: rgt ∧
      (∀ q ∈ lft, q.2 < rate) ∧
      (∀ q ∈ viable, q.2 ≤ rate) := by
  obtain ⟨q, qs, rfl⟩ : ∃ q qs, viable = q :: qs := by
    cases viable with
    | nil => exact absurd rfl hne
    | cons a as => exact ⟨a, as, rfl⟩
  have hpool : pool ≠ [] := by
    intro hp
    subst hp
    rw [viableOf] at hv
    simp at hv
  obtain ⟨lft, pr, rgt, heq, hf, hlt, hle⟩ := firstMaxAux_spec qs q
  have hrun := get_proxy_smart_viable pool stats idx r q qs hpool hv
  rw [hf] at hrun
  have hpr : (pr.1, pr.2) = pr := rfl
  refine ⟨pr.1, pr.2, lft, rgt, hrun,
    viableOf_eq_filterMap _ _ _ hv, ?_, hlt, hle⟩
  rw [hpr]
  exact heq

/-- Instantiation of C4 at pool `["A", "B"]` with stats `A: 9/10 over
10 requests` and `B: 1/20 over 20 requests` (only `A` eligible). -/
theorem C4_smart_selects_highest_success_rate_witness :
    ∃ (p : String) (rate : ℚ) (lft rgt : List (String × ℚ)),
      ProxyManager.get_proxy
          ⟨["A", "B"], "smart", 0,
            [("A", (⟨9, 1⟩ : ProxyStats)), ("B", (⟨1, 19⟩ : ProxyStats))]⟩ 0 =
        Except.ok (some p,
          ⟨["A", "B"], "smart", 0,
            [("A", (⟨9, 1⟩ : ProxyStats)), ("B", (⟨1, 19⟩ : ProxyStats))]⟩) ∧
      [("A", (9 : ℚ)/10)] = (["A", "B"].filterMap (fun x =>
        (dictGet [("A", (⟨9, 1⟩ : ProxyStats)),
            ("B", (⟨1, 19⟩ : ProxyStats))] x).bind (fun s =>
          if s.success_rate > 1/10 ∨ s.total_requests < 10 then
            some (x, s.success_rate)
          else none))) ∧
      [("A", (9 : ℚ)/10)] = lft ++ (p, rate) :: rgt ∧
      (∀ q ∈ lft, q.2 < rate) ∧
      (∀ q ∈ [("A", (9 : ℚ)/10)], q.2 ≤ rate) :=
  C4_smart_selects_highest_success_rate ["A", "B"]
    [("A", (⟨9, 1⟩ : ProxyStats)), ("B", (⟨1, 19⟩ : ProxyStats))] 0 0
    [("A", (9 : ℚ)/10)]
    (by
      have hA : dictGet [("A", (⟨9, 1⟩ : ProxyStats)),
          ("B", (⟨1, 19⟩ : ProxyStats))] "A" = some ⟨9, 1⟩ := rfl
      have hB : dictGet [("A", (⟨9, 1⟩ : ProxyStats)),
          ("B", (⟨1, 19⟩ : ProxyStats))] "B" = some ⟨1, 19⟩ := rfl
      norm_num [viableOf, hA, hB, ProxyStats.success_rate,
        ProxyStats.total_requests])
    (by simp)

theorem dictGet_map_reset (stats : List (String × ProxyStats)) (k : String) :
    dictGet (stats.map (fun kv => (kv.1, (⟨0, 0⟩ : ProxyStats)))) k =
      (dictGet stats k).map (fun _ => (⟨0, 0⟩ : ProxyStats)) := by
  induction stats with
  | nil => rfl
  | cons kv d ih =>
      by_cases h : kv.1 = k
      · simp [dictGet, h]
      · simp [dictGet, h, ih]

theorem viableOf_lookup_isSome (stats : List (String × ProxyStats))
    (pool : List String) (viable : List (String × ℚ))
    (hv : viableOf stats pool = some viable) :
    ∀ p ∈ pool, ∃ s, dictGet stats p = some s := by
  induction pool generalizing viable with
  | nil => simp
  | cons p ps ih =>
      rw [viableOf] at hv
      cases hg : dictGet stats p with
      | none => rw [hg] at hv; simp at hv
      | some s =>
          rw [hg] at hv
          cases hrec : viableOf stats ps with
          | none => rw [hrec] at hv; simp at hv
          | some rest =>
              intro x hx
              rcases List.mem_cons.mp hx with hx | hx
              · exact ⟨s, hx ▸ hg⟩
              · exact ih rest hrec x hx

theorem viableOf_reset (stats : List (String × ProxyStats))
    (pool : List String)
    (h : ∀ p ∈ pool, ∃ s, dictGet stats p = some s) :
    viableOf (stats.map (fun kv => (kv.1, (⟨0, 0⟩ : ProxyStats)))) pool =
      some (pool.map (fun x => (x, (1 : ℚ)))) := by
  induction pool with
  | nil => rfl
  | cons p ps ih =>
      obtain ⟨s, hs⟩ := h p (List.mem_cons_self _ _)
      have hg : dictGet (stats.map (fun kv => (kv.1, (⟨0, 0⟩ : ProxyStats)))) p =
          some ⟨0, 0⟩ := by
        rw [dictGet_map_reset, hs]
        rfl
      rw [viableOf, hg, ih (fun x hx => h x (List.mem_cons_of_mem _ hx))]
      dsimp only
      have helig : ProxyStats.success_rate ⟨0, 0⟩ > 1/10 ∨
          ProxyStats.total_requests ⟨0, 0⟩ < 10 := by
        right
        norm_num [ProxyStats.total_requests]
      rw [if_pos helig]
      have hrate : ProxyStats.success_rate ⟨0, 0⟩ = 1 := rfl
      rw [hrate, List.map_cons]

/-- C7: under the `smart` strategy, when no pool entry is eligible
(`viableOf` yields the empty list on a non-empty pool), `get_proxy`
zeroes every stats record and returns the pool member selected by the
random index `r` for this call; afterwards every pool entry is eligible
again with success rate 1 (fresh-stats optimism), so the next call takes
the normal eligibility path. -/
theorem C7_smart_starvation_reset (pool : List String)
    (stats : List (String × ProxyStats)) (idx r : ℕ)
    (hpool : pool ≠ [])
    (hv : viableOf stats pool = some []) :
    ProxyManager.get_proxy ⟨pool, "smart", idx, stats⟩ r =
      Except.ok (some (pool.getD (r % pool.length) ""),
        ⟨pool, "smart", idx,
          stats.map (fun kv => (kv.1, (⟨0, 0⟩ : ProxyStats)))⟩) ∧
    pool.getD (r % pool.length) "" ∈ pool ∧
    viableOf (stats.map (fun kv => (kv.1, (⟨0, 0⟩ : ProxyStats)))) pool =
      some (pool.map (fun x => (x, (1 : ℚ)))) := by
  refine ⟨get_proxy_smart_reset_eval pool stats idx r hpool hv, ?_,
    viableOf_reset stats pool (viableOf_lookup_isSome stats pool [] hv)⟩
  have hl : 0 < pool.length := List.length_pos.mpr hpool
  have hm : r % pool.length < pool.length := Nat.mod_lt _ hl
  rw [List.getD_eq_getElem?_getD, List.getElem?_eq_getElem hm]
  exact List.getElem_mem _

/-- Instantiation of C7 at pool `["a", "b"]` with both proxies starved
(`a`: 0/10, `b`: 1/19 over 20 requests) and random index 1. -/
theorem C7_smart_starvation_reset_witness :
    ProxyManager.get_proxy
        ⟨["a", "b"], "smart", 0,
          [("a", (⟨0, 10⟩ : ProxyStats)), ("b", (⟨1, 19⟩ : ProxyStats))]⟩ 1 =
      Except.ok (some (["a", "b"].getD (1 % ["a", "b"].length) ""),
        ⟨["a", "b"], "smart", 0,
          [("a", (⟨0, 0⟩ : ProxyStats)), ("b", (⟨0, 0⟩ : ProxyStats))]⟩) ∧
    ["a", "b"].getD (1 % ["a", "b"].length) "" ∈ ["a", "b"] ∧
    viableOf [("a", (⟨0, 0⟩ : ProxyStats)), ("b", (⟨0, 0⟩ : ProxyStats))]
        ["a", "b"] =
      some [("a", (1 : ℚ)), ("b", (1 : ℚ))] := by
  have h := C7_smart_starvation_reset ["a", "b"]
    [("a", (⟨0, 10⟩ : ProxyStats)), ("b", (⟨1, 19⟩ : ProxyStats))] 0 1
    (by simp)
    (by
      have hA : dictGet [("a", (⟨0, 10⟩ : ProxyStats)),
          ("b", (⟨1, 19⟩ : ProxyStats))] "a" = some ⟨0, 10⟩ := rfl
      have hB : dictGet [("a", (⟨0, 10⟩ : ProxyStats)),
          ("b", (⟨1, 19⟩ : ProxyStats))] "b" = some ⟨1, 19⟩ := rfl
      norm_num [viableOf, hA, hB, ProxyStats.success_rate,
        ProxyStats.total_requests])
  exact h

/-! ## CacheManager (`cache_manager.py`) -/

/-- One cache file's content, as serialised by `CacheManager.set`:
the JSON object with fields `timestamp` and `data`. -/
structure CacheEntry (V : Type) : Type where
  timestamp : ℚ
  data : V
deriving DecidableEq, Repr

/-- `CacheManager` state: `ttl`, `enabled`, and the cache directory
contents, one entry per key (`<key>.json` files modelled as an
association list). -/
structure CacheManager (V : Type) : Type where
  ttl : ℚ
  enabled : Bool
  store : List (String × CacheEntry V)
deriving DecidableEq, Repr

/-- The `try` block of `CacheManager.get` once the file is known to
exist, with entry `e` as read from disk.  `fault = true` models any
exception raised inside the block (open, `json.load`, `unlink`), which
the surrounding handler catches. -/
def CacheManager.getTryBody {V : Type} (c : CacheManager V) (key : String)
    (e : CacheEntry V) (now : ℚ) (fault : Bool) :
    Except String (Option V × CacheManager V) :=
  if fault then Except.error "CacheBackendError"
  else if c.ttl > 0 ∧ now - e.timestamp > c.ttl then
    Except.ok (none, { c with store := dictErase c.store key })
  else Except.ok (some e.data, c)

/-- `CacheManager.get`: disabled cache and missing file return `none`;
the `try` block's result is returned, and any exception it raises is
caught, returning `none` with the state untouched. -/
def CacheManager.get {V : Type} (c : CacheManager V) (key : String)
    (now : ℚ) (fault : Bool) : Option V × CacheManager V :=
  if c.enabled = false then (none, c)
  else
    match dictGet c.store key with
    | none => (none, c)
    | some e =>
        match c.getTryBody key e now fault with
        | Except.error _ => (none, c)
        | Except.ok res => res

/-- The `try` block of `CacheManager.set`: write the entry stamped with
the current time, or raise (`fault = true`). -/
def CacheManager.setTry {V : Type} (c : CacheManager V) (key : String)
    (v : V) (now : ℚ) (fault : Bool) : Except String (CacheManager V) :=
  if fault then Except.error "CacheBackendError"
  else Except.ok { c with store := dictSet c.store key ⟨now, v⟩ }

/-- `CacheManager.set`: disabled cache is a no-op; an exception raised
while writing is caught and the method returns normally with the state
untouched. -/
def CacheManager.set {V : Type} (c : CacheManager V) (key : String)
    (v : V) (now : ℚ) (fault : Bool) : CacheManager V :=
  if c.enabled = false then c
  else
    match c.setTry key v now fault with
    | Except.error _ => c
    | Except.ok c' => c'

theorem dictGet_dictSet_self {α : Type} (d : List (String × α))
    (k : String) (v : α) : dictGet (dictSet d k v) k = some v := by
  induction d with
  | nil => simp [dictGet, dictSet]
  | cons kv d ih =>
      by_cases h : kv.1 = k
      · simp [dictGet, dictSet, h]
      · simp [dictGet, dictSet, h, ih]

/-- C5: on an enabled cache, a value stored at time `T` is returned
unchanged by `get` at any time `t < T + ttl` (for `ttl > 0`); at any
`t > T + ttl` the entry is reported absent and deleted as a side
effect; with `ttl = 0` the value is returned regardless of age. -/
theorem C5_cache_ttl_roundtrip_and_expiry {V : Type} (c : CacheManager V)
    (key : String) (v : V) (T t : ℚ)
    (henabled : c.enabled = true) :
    ((c.set key v T false).get key t false =
      if c.ttl > 0 ∧ t - T > c.ttl then
        (none, { c.set key v T false with
                  store := dictErase (c.set key v T false).store key })
      else (some v, c.set key v T false)) ∧
    (c.ttl > 0 → t < T + c.ttl →
      (c.set key v T false).get key t false = (some v, c.set key v T false)) ∧
    (c.ttl > 0 → t > T + c.ttl →
      (c.set key v T false).get key t false =
        (none, { c.set key v T false with
                  store := dictErase (c.set key v T false).store key })) ∧
    (c.ttl = 0 →
      (c.set key v T false).get key t false = (some v, c.set key v T false)) := by
  have hset : c.set key v T false =
      { c with store := dictSet c.store key ⟨T, v⟩ } := by
    unfold CacheManager.set CacheManager.setTry
    rw [henabled]
    simp
  have hget : dictGet (c.set key v T false).store key = some ⟨T, v⟩ := by
    rw [hset]
    exact dictGet_dictSet_self _ _ _
  have hne : ¬ ((c.set key v T false).enabled = false) := by
    rw [hset, henabled]
    simp
  have httl : (c.set key v T false).ttl = c.ttl := by rw [hset]
  have hgetEq : (c.set key v T false).get key t false =
      if c.ttl > 0 ∧ t - T > c.ttl then
        (none, { c.set key v T false with
                  store := dictErase (c.set key v T false).store key })
      else (some v, c.set key v T false) := by
    unfold CacheManager.get CacheManager.getTryBody
    rw [if_neg hne, hget]
    dsimp only
    rw [httl]
    by_cases hc : c.ttl > 0 ∧ t - T > c.ttl
    · rw [if_pos hc, if_pos hc]
      simp [httl]
    · rw [if_neg hc, if_neg hc]
      simp
  refine ⟨hgetEq, ?_, ?_, ?_⟩
  · intro h1 h2
    rw [hgetEq, if_neg ?_]
    rintro ⟨-, hgt⟩
    linarith
  · intro h1 h2
    rw [hgetEq, if_pos ⟨h1, by linarith⟩]
  · intro h0
    rw [hgetEq, if_neg ?_]
    rintro ⟨hgt, -⟩
    rw [h0] at hgt
    exact lt_irrefl 0 hgt

/-- Instantiation of C5 at `ttl = 3600`, store at `T = 100`, reads at
`t = 3600` (fresh) and, via a second application, at `t = 3701`
(expired). -/
theorem C5_cache_ttl_roundtrip_and_expiry_witness :
    ((⟨3600, true, []⟩ : CacheManager ℕ).set "k" 42 100 false).get "k" 3600
        false =
      (some 42, (⟨3600, true, []⟩ : CacheManager ℕ).set "k" 42 100 false) ∧
    ((⟨3600, true, []⟩ : CacheManager ℕ).set "k" 42 100 false).get "k" 3701
        false =
      (none, { (⟨3600, true, []⟩ : CacheManager ℕ).set "k" 42 100 false with
                store := dictErase ((⟨3600, true, []⟩ :
                  CacheManager ℕ).set "k" 42 100 false).store "k" }) := by
  constructor
  · exact (C5_cache_ttl_roundtrip_and_expiry _ "k" 42 100 3600 rfl).2.1
      (by norm_num) (by norm_num)
  · exact (C5_cache_ttl_roundtrip_and_expiry _ "k" 42 100 3701 rfl).2.2.1
      (by norm_num) (by norm_num)

/-- C8: a backend error raised inside `get`'s `try` block is caught and
the call degrades to a miss with the cache state untouched; a backend
error raised inside `set`'s `try` block is caught and `set` returns
normally with the state untouched; neither call propagates the error
(both are total functions whose `try` bodies are the only
error-producing parts, shown by the two `Except.error` conjuncts). -/
theorem C8_cache_errors_never_propagate {V : Type} (c : CacheManager V)
    (key : String) (v : V) (e : CacheEntry V) (now : ℚ) :
    c.getTryBody key e now true = Except.error "CacheBackendError" ∧
    c.get key now true = (none, c) ∧
    c.setTry key v now true = Except.error "CacheBackendError" ∧
    c.set key v now true = c := by
  refine ⟨rfl, ?_, rfl, ?_⟩
  · unfold CacheManager.get
    by_cases he : c.enabled = false
    · rw [if_pos he]
    · rw [if_neg he]
      cases dictGet c.store key with
      | none => rfl
      | some e' => rfl
  · unfold CacheManager.set
    by_cases he : c.enabled = false
    · rw [if_pos he]
    · rw [if_neg he]
      rfl

/-! ## `CacheManager.make_key` (`cache_manager.py`) -/

/-- `":".join(key_parts)`. -/
def joinColon : List String → String
  | [] => ""
  | [s] => s
  | s :: s' :: ss => s ++ ":" ++ joinColon (s' :: ss)

/-- `CacheManager.make_key`, modelled up to the final digest: `args` are
the `str(arg)` renderings of the positional arguments and `kwargs` the
`(k, str(v))` pairs of the keyword arguments.  The model returns the
serialised `key_string`; the Python code returns `md5(key_string)`, a
fixed function of this string, so equal serialisations yield the
identical key.  `sorted(kwargs.items())` sorts pairs lexicographically
and is stable, as is insertion sort; dict keys are unique, so ordering
by key alone is equivalent. -/
def make_key (args : List String) (kwargs : List (String × String)) : String :=
  let key_parts := args ++
    (List.insertionSort (fun a b => a.1 ≤ b.1) kwargs).map
      (fun kv => kv.1 ++ "=" ++ kv.2)
  joinColon key_parts

theorem append_sep_inj (a : List Char) : ∀ (b x y : List Char),
    ':' ∉ a → ':' ∉ b → a ++ ':' :: x = b ++ ':' :: y → a = b ∧ x = y := by
  induction a with
  | nil =>
      intro b x y _ hb h
      cases b with
      | nil => simpa using h
      | cons c b' =>
          rw [List.nil_append, List.cons_append] at h
          injection h with h1 h2
          exact absurd (by rw [← h1]; exact List.mem_cons_self _ _ : ':' ∈ c :: b') hb
  | cons c a' ih =>
      intro b x y ha hb h
      cases b with
      | nil =>
          rw [List.cons_append, List.nil_append] at h
          injection h with h1 h2
          exact absurd (by rw [h1]; exact List.mem_cons_self _ _ : ':' ∈ c :: a') ha
      | cons d b' =>
          rw [List.cons_append, List.cons_append] at h
          injection h with h1 h2
          have ha' : ':' ∉ a' := fun hm => ha (List.mem_cons_of_mem _ hm)
          have hb' : ':' ∉ b' := fun hm => hb (List.mem_cons_of_mem _ hm)
          obtain ⟨hab, hxy⟩ := ih b' x y ha' hb' h2
          exact ⟨by rw [h1, hab], hxy⟩

theorem joinColon_inj (l1 : List String) : ∀ l2 : List String,
    l1.length = l2.length →
    (∀ s ∈ l1, ':' ∉ s.data) → (∀ s ∈ l2, ':' ∉ s.data) →
    joinColon l1 = joinColon l2 → l1 = l2 := by
  induction l1 with
  | nil =>
      intro l2 hlen _ _ _
      cases l2 with
      | nil => rfl
      | cons t l2' => simp at hlen
  | cons s l1' ih =>
      intro l2 hlen h1 h2 hj
      cases l2 with
      | nil => simp at hlen
      | cons t l2' =>
          cases l1' with
          | nil =>
              cases l2' with
              | nil =>
                  rw [show joinColon [s] = s from rfl,
                    show joinColon [t] = t from rfl] at hj
                  rw [hj]
              | cons u l2'' => simp at hlen
          | cons s' l1'' =>
              cases l2' with
              | nil => simp at hlen
              | cons t' l2'' =>
                  rw [joinColon, joinColon] at hj
                  have hd : s.data ++ ':' :: (joinColon (s' :: l1'')).data =
                      t.data ++ ':' :: (joinColon (t' :: l2'')).data := by
                    have hcongr := congrArg String.data hj
                    simpa [String.data_append] using hcongr
                  obtain ⟨hst, hrest⟩ := append_sep_inj s.data t.data _ _
                    (h1 s (List.mem_cons_self _ _)) (h2 t (List.mem_cons_self _ _)) hd
                  have hs : s = t := String.ext hst
                  have hjoin : joinColon (s' :: l1'') = joinColon (t' :: l2'') :=
                    String.ext hrest
                  have hlen' : (s' :: l1'').length = (t' :: l2'').length := by
                    simpa using hlen
                  have htail := ih (t' :: l2'') hlen'
                    (fun x hx => h1 x (List.mem_cons_of_mem _ hx))
                    (fun x hx => h2 x (List.mem_cons_of_mem _ hx)) hjoin
                  rw [hs, htail]

theorem sortKV_eq_of_perm (kw1 kw2 : List (String × String))
    (hperm : kw1.Perm kw2) (hnd : (kw1.map Prod.fst).Nodup) :
    List.insertionSort (fun a b => a.1 ≤ b.1) kw1 =
      List.insertionSort (fun a b => a.1 ≤ b.1) kw2 := by
  haveI htot : IsTotal (String × String) (fun a b => a.1 ≤ b.1) :=
    ⟨fun a b => le_total a.1 b.1⟩
  haveI htrans : IsTrans (String × String) (fun a b => a.1 ≤ b.1) :=
    ⟨fun a b c h1 h2 => le_trans h1 h2⟩
  haveI hanti : IsAntisymm (String × String)
      (fun a b : String × String => a.1 < b.1) :=
    ⟨fun a b h1 h2 => absurd (lt_trans h1 h2) (lt_irrefl _)⟩
  have hs1 : List.Sorted (fun a b : String × String => a.1 ≤ b.1)
      (List.insertionSort (fun a b => a.1 ≤ b.1) kw1) :=
    List.sorted_insertionSort _ kw1
  have hs2 : List.Sorted (fun a b : String × String => a.1 ≤ b.1)
      (List.insertionSort (fun a b => a.1 ≤ b.1) kw2) :=
    List.sorted_insertionSort _ kw2
  have hp : (List.insertionSort (fun a b => a.1 ≤ b.1) kw1).Perm
      (List.insertionSort (fun a b => a.1 ≤ b.1) kw2) :=
    (List.perm_insertionSort _ kw1).trans
      (hperm.trans (List.perm_insertionSort _ kw2).symm)
  have hnd2 : (kw2.map Prod.fst).Nodup :=
    ((hperm.map Prod.fst).nodup_iff).mp hnd
  have hstrict : ∀ (l : List (String × String)),
      List.Sorted (fun a b : String × String => a.1 ≤ b.1) l →
      (l.map Prod.fst).Nodup →
      List.Sorted (fun a b : String × String => a.1 < b.1) l := by
    intro l hs hn
    have hpw : l.Pairwise (fun a b => a.1 ≠ b.1) := (List.pairwise_map).mp hn
    exact (hs.and hpw).imp (fun h => lt_of_le_of_ne h.1 h.2)
  have hnds1 : ((List.insertionSort (fun a b => a.1 ≤ b.1) kw1).map
      Prod.fst).Nodup :=
    (((List.perm_insertionSort _ kw1).map Prod.fst).nodup_iff).mpr hnd
  have hnds2 : ((List.insertionSort (fun a b => a.1 ≤ b.1) kw2).map
      Prod.fst).Nodup :=
    (((List.perm_insertionSort _ kw2).map Prod.fst).nodup_iff).mpr hnd2
  exact List.eq_of_perm_of_sorted hp (hstrict _ hs1 hnds1) (hstrict _ hs2 hnds2)

/-- C9 counterexample: the positional parts are joined with `":"` before
hashing, and an argument may itself contain the separator, so reordering
the same positional arguments can produce the identical key: `["a",
"a:a"]` and `["a:a", "a"]` both serialise to `"a:a:a"`, hence hash to
the identical MD5 key, refuting "differing positional order produces
different keys". -/
theorem C9_make_key_order_counterexample :
    make_key ["a", "a:a"] [] = make_key ["a:a", "a"] [] ∧
    (["a", "a:a"] : List String) ≠ ["a:a", "a"] ∧
    (["a", "a:a"] : List String).Perm ["a:a", "a"] := by
  refine ⟨rfl, by decide, List.Perm.swap _ _ _⟩

/-- C9 amended: `make_key` is a pure function; keyword mappings with the
same key-value pairs (a permutation with no duplicate keys) produce the
identical serialised key regardless of insertion order; and the same
positional arguments supplied in a different order produce a different
serialised key (hence a different MD5 key barring hash collisions)
provided no argument's string form contains the separator `":"` — with
colon-containing arguments the serialisations can collide. -/
theorem C9_make_key_amended (args1 args2 : List String)
    (kwargs kw1 kw2 : List (String × String))
    (hperm : kw1.Perm kw2)
    (hnd : (kw1.map Prod.fst).Nodup)
    (hargs1 : ∀ s ∈ args1, ':' ∉ s.data)
    (hargs2 : ∀ s ∈ args2, ':' ∉ s.data)
    (hkw : ∀ p ∈ kwargs, ':' ∉ p.1.data ∧ ':' ∉ p.2.data)
    (hpermargs : args1.Perm args2)
    (hne : args1 ≠ args2) :
    make_key args1 kw1 = make_key args1 kw2 ∧
    make_key args1 kwargs ≠ make_key args2 kwargs := by
  constructor
  · unfold make_key
    rw [sortKV_eq_of_perm kw1 kw2 hperm hnd]
  · intro h
    unfold make_key at h
    have hPmem : ∀ s ∈ (List.insertionSort
        (fun a b : String × String => a.1 ≤ b.1) kwargs).map
        (fun kv => kv.1 ++ "=" ++ kv.2), ':' ∉ s.data := by
      intro s hs
      obtain ⟨kv, hkv, rfl⟩ := List.mem_map.mp hs
      have hkv' : kv ∈ kwargs :=
        ((List.perm_insertionSort _ kwargs).mem_iff).mp hkv
      obtain ⟨h1, h2⟩ := hkw kv hkv'
      intro hm
      simp only [String.data_append, List.mem_append, List.mem_cons,
        show ("=" : String).data = ['='] from rfl] at hm
      rcases hm with (hm | hm) | hm
      · exact h1 hm
      · simp at hm
      · exact h2 hm
    have hfree1 : ∀ s ∈ args1 ++ (List.insertionSort
        (fun a b : String × String => a.1 ≤ b.1) kwargs).map
        (fun kv => kv.1 ++ "=" ++ kv.2), ':' ∉ s.data := by
      intro s hs
      rcases List.mem_append.mp hs with hs | hs
      · exact hargs1 s hs
      · exact hPmem s hs
    have hfree2 : ∀ s ∈ args2 ++ (List.insertionSort
        (fun a b : String × String => a.1 ≤ b.1) kwargs).map
        (fun kv => kv.1 ++ "=" ++ kv.2), ':' ∉ s.data := by
      intro s hs
      rcases List.mem_append.mp hs with hs | hs
      · exact hargs2 s hs
      · exact hPmem s hs
    have hlen : (args1 ++ (List.insertionSort
        (fun a b : String × String => a.1 ≤ b.1) kwargs).map
        (fun kv => kv.1 ++ "=" ++ kv.2)).length =
        (args2 ++ (List.insertionSort
        (fun a b : String × String => a.1 ≤ b.1) kwargs).map
        (fun kv => kv.1 ++ "=" ++ kv.2)).length := by
      simp [hpermargs.length_eq]
    have heq := joinColon_inj _ _ hlen hfree1 hfree2 h
    exact hne (List.append_cancel_right heq)

/-- Instantiation of C9 (amended): swapped keyword pairs give the
identical key; swapped colon-free positional arguments give different
keys. -/
theorem C9_make_key_amended_witness :
    make_key ["x", "y"] [("a", "1"), ("b", "2")] =
      make_key ["x", "y"] [("b", "2"), ("a", "1")] ∧
    make_key ["x", "y"] [("k", "v")] ≠ make_key ["y", "x"] [("k", "v")] :=
  C9_make_key_amended ["x", "y"] ["y", "x"] [("k", "v")]
    [("a", "1"), ("b", "2")] [("b", "2"), ("a", "1")]
    (List.Perm.swap _ _ _)
    (by decide)
    (by decide)
    (by decide)
    (by decide)
    (List.Perm.swap _ _ _)
    (by decide)

/-! ## MultiRateLimiter (`rate_limiter.py`, class `MultiRateLimiter`) -/

/-- `MultiRateLimiter.acquire`: `if limiter_name in self.limiters:`
delegate to that limiter's `acquire`, else fall through — no wait, no
state change, no error.  The result is the updated `limiters` dict
(`none` propagating a crash of the underlying `acquire`). -/
def MultiRateLimiter.acquire (limiters : List (String × RateLimiter))
    (limiter_name : String) (t1 t2 t3 : ℚ) :
    Option (List (String × RateLimiter)) :=
  match dictGet limiters limiter_name with
  | some rl => (rl.acquire t1 t2 t3).map
      (fun rl' => dictSet limiters limiter_name rl')
  | none => some limiters

/-- C10: `MultiRateLimiter.acquire` with a name that is not a key of the
`limiters` dict returns immediately with every limiter's state
unchanged — no limiter is consulted, nothing is awaited, and no error is
raised (an unknown name silently bypasses rate limiting). -/
theorem C10_multi_rate_limiter_unknown_name
    (limiters : List (String × RateLimiter)) (limiter_name : String)
    (t1 t2 t3 : ℚ)
    (h : dictGet limiters limiter_name = none) :
    MultiRateLimiter.acquire limiters limiter_name t1 t2 t3 = some limiters := by
  unfold MultiRateLimiter.acquire
  rw [h]

/-- Instantiation of C10 at a single registered limiter named `"api"`
and an acquire against the unregistered name `"scraping"`. -/
theorem C10_multi_rate_limiter_unknown_name_witness :
    MultiRateLimiter.acquire [("api", ⟨100, 60, []⟩)] "scraping" 0 0 0 =
      some [("api", ⟨100, 60, []⟩)] :=
  C10_multi_rate_limiter_unknown_name [("api", ⟨100, 60, []⟩)] "scraping"
    0 0 0 rfl

end YCA
